import Mathlib

/-!
Shallow embedding of the DNA-storage codec in `src/team0001/coder.py`
(class `Coder`, methods `image_to_dna` and `dna_to_image`).

Conventions of the embedding:
* a byte buffer is a `List Nat` of byte values, a bit is a `Bool`, a DNA
  sequence is a `List Char`;
* numpy `uint8` bit rows are `List Bool`; row matrices are `List (List Bool)`;
* a Python exception (`ValueError`, `KeyError`, `IndexError`, numpy
  `OverflowError` on `256 ** 8`, reshape errors) aborts the call with no
  output, so fallible stages return `Option`;
* the instance fields `self.address`, `self.payload`, `self.supplement`,
  `self.message_number` form the codec state `CoderState`.  `__init__` sets
  `address, payload = 12, 128` and `supplement, message_number = 0, 0`;
  `image_to_dna` is modelled as a function from the configured address width
  and the input bytes to the sequence list together with the state it leaves
  behind, which `dna_to_image` then consumes.  The payload width is fixed to
  128 as in the source (`__init__` and the hard-coded `128 * 2` reshape).
-/

/-- The codec state: instance fields of `Coder` shared between
`image_to_dna` and `dna_to_image`. -/
structure CoderState where
  address : Nat
  payload : Nat
  supplement : Nat
  message_number : Nat
deriving DecidableEq

/-- One byte to its 8 bits, most significant bit first
(numpy `unpackbits` on one `uint8`). -/
def unpackByte (b : Nat) : List Bool :=
  (List.range 8).map fun j => b.testBit (7 - j)

/-- A byte buffer to its bit stream
(`unpackbits(expand_dims(fromfile(...), 1), axis=1).reshape(-1)`). -/
def bytesToBits (bs : List Nat) : List Bool :=
  (bs.map unpackByte).flatten

/-- The number of zero bits appended to a bit stream of length `L` so that its
length becomes a multiple of `payload * 2`; `0` when it already is one
(the `if len(bits) % (self.payload * 2) != 0` block; `self.supplement`
stays at its initial value `0` in the other branch). -/
def supplementOf (payload L : Nat) : Nat :=
  if L % (payload * 2) = 0 then 0 else payload * 2 - L % (payload * 2)

/-- Fuel-driven least `k` with `n ≤ 256 ^ k`.  This is
`ceil(log2(n) / log2(256)).astype(int)` of the source, which is exact on the
integer inputs involved; a structural recursion is used so that the kernel
can evaluate it. -/
def clogAux : Nat → Nat → Nat
  | 0, _ => 0
  | fuel + 1, n => if n ≤ 1 then 0 else clogAux fuel ((n + 255) / 256) + 1

/-- `byte_number = ceil(log2(len(binary_messages)) / log2(256)).astype(int)`:
the number of bytes used for the big-endian frame index. -/
def byteNumber (n : Nat) : Nat := clogAux n n

/-- The `W`-bit big-endian bit pattern of `i` (the unpacked `mould` row:
byte `byte_number - 1 - index` holds `(i // 256 ** index) % 256`, and
`unpackbits` lays the bytes out most significant bit first). -/
def bigEndianBits (W i : Nat) : List Bool :=
  (List.range W).map fun j => i.testBit (W - 1 - j)

/-- Column `j` of the unpacked index matrix is all zero across the `N` frame
indices (`sum(index_matrix, axis=0) == 0` at that column). -/
def colUnused (N W j : Nat) : Bool :=
  decide (∀ i, i < N → i.testBit (W - 1 - j) = false)

/-- `start_location = max(unused_locations) + 1 if len(unused_locations) > 0
else 0`, written as a fold so that the empty case is the initial value `0`. -/
def startLocation (N : Nat) : Nat :=
  ((List.range (8 * byteNumber N)).filter (colUnused N (8 * byteNumber N))).foldl
    (fun acc j => Nat.max acc (j + 1)) 0

/-- Width of the trimmed index rows, `len(index_matrix[0])` after
`index_matrix = index_matrix[:, start_location:]`. -/
def trimmedWidth (N : Nat) : Nat := 8 * byteNumber N - startLocation N

/-- Row `i` of the trimmed index matrix. -/
def trimmedIndexBits (N i : Nat) : List Bool :=
  (bigEndianBits (8 * byteNumber N) i).drop (startLocation N)

/-- Row `i` of the index matrix after left-padding with zeros to the
configured `address * 2` bits (the `expanded_matrix` concatenation; a
no-op when the widths already agree). -/
def paddedIndexBits (a N i : Nat) : List Bool :=
  List.replicate (a * 2 - trimmedWidth N) false ++ trimmedIndexBits N i

/-- The index-insertion stage of `image_to_dna` for `N` frames: `none` is the
`ValueError("The address length is too short to represent all addresses.")`
raise, otherwise the `N` index rows of `address * 2` bits each. -/
def indexStage (a N : Nat) : Option (List (List Bool)) :=
  if a * 2 < trimmedWidth N then none
  else some ((List.range N).map (paddedIndexBits a N))

/-- Bool to the numpy 0/1 digit. -/
def b2n (b : Bool) : Nat := cond b 1 0

/-- The digit-to-symbol substitution (`digit_set[digit_set == 0] = ord("A")`
and so on; `digit_set` only holds values `0..3`). -/
def symbolOfDigit (d : Nat) : Char :=
  if d = 0 then 'A' else if d = 1 then 'C' else if d = 2 then 'G' else 'T'

/-- The decode-side symbol table
`mapping = {"A": [0, 0], "C": [0, 1], "G": [1, 0], "T": [1, 1]}`;
`none` is the `KeyError` for a character outside the alphabet. -/
def mapping (c : Char) : Option (Bool × Bool) :=
  if c = 'A' then some (false, false)
  else if c = 'C' then some (false, true)
  else if c = 'G' then some (true, false)
  else if c = 'T' then some (true, true)
  else none

/-- The symbol-mapping stage for one row of `2 * w` bits, `w` the symbol count
`address + payload`:
`digit_set = 2 * binary_messages[:, :w] + binary_messages[:, w:]`, so output
symbol `j` is made from bit `j` and bit `w + j` of the row — the two halves
of the row, not adjacent bit pairs. -/
def mapRow (w : Nat) (row : List Bool) : List Char :=
  (List.range w).map fun j =>
    symbolOfDigit (2 * b2n (row.getD j false) + b2n (row.getD (w + j) false))

/-- The per-frame bit rows of `image_to_dna` (index bits concatenated with the
payload frame), or `none` when the call raises.  The frame size `256 = 128 * 2`
is hard-coded as in `bits.reshape(len(bits) // (128 * 2), (128 * 2))`.
An empty input gives `len(binary_messages) = 0`, on which the
`log2(0)`-derived `byte_number` makes `zeros(shape=(0, byte_number))` raise,
hence the `N = 0` guard. -/
def encodeRows (a : Nat) (bytes : List Nat) : Option (List (List Bool)) :=
  let bits0 := bytesToBits bytes
  let bits := bits0 ++ List.replicate (supplementOf 128 bits0.length) false
  let N := bits.length / 256
  if N = 0 then none
  else
    match indexStage a N with
    | none => none
    | some idx =>
      some ((List.range N).map fun i => idx.getD i [] ++ (bits.drop (256 * i)).take 256)

/-- `image_to_dna`: the sequence list in frame order together with the codec
state the call leaves in the `Coder` instance. -/
def imageToDna (a : Nat) (bytes : List Nat) : Option (List (List Char) × CoderState) :=
  match encodeRows a bytes with
  | none => none
  | some rows =>
    some (rows.map (mapRow (a + 128)),
      ⟨a, 128, supplementOf 128 (bytesToBits bytes).length, rows.length⟩)

/-- The bit row a sequence is demapped to in the first loop of `dna_to_image`:
character `ni` of `dna_sequence[:address + payload]` writes its high bit at
column `ni` and its low bit at column `ni + address + payload` of a zero row;
columns never written stay `0`.  (Validity of the characters is checked
separately by `seqValid`; this is the matrix content on the non-raising run.) -/
def demapBits (w : Nat) (s : List Char) : List Bool :=
  ((List.range w).map fun ni =>
    match s.get? ni with
    | some c => ((mapping c).getD (false, false)).1
    | none => false) ++
  ((List.range w).map fun ni =>
    match s.get? ni with
    | some c => ((mapping c).getD (false, false)).2
    | none => false)

/-- All characters of `s[:w]` are in the alphabet (no `KeyError` in the
demap loop for this sequence). -/
def seqValid (w : Nat) (s : List Char) : Bool :=
  (s.take w).all fun c => (mapping c).isSome

/-- The first loop of `dna_to_image` raises no exception: every sequence has
only alphabet characters among its first `address + payload` ones (else
`KeyError`), and every sequence at a list position `≥ message_number` is
empty (a nonempty one makes its first write go out of bounds of the
`message_number`-row matrix: `IndexError`). -/
def stage1Ok (st : CoderState) (S : List (List Char)) : Bool :=
  (List.range S.length).all fun i =>
    seqValid (st.address + st.payload) (S.getD i []) &&
      (decide (i < st.message_number) || decide (S.getD i [] = ([] : List Char)))

/-- The `message_number`-row matrix `binary_messages` after the demap loop:
row `i` comes from input sequence `i`; rows with no input sequence keep their
`zeros` initialisation. -/
def stage1Rows (st : CoderState) (S : List (List Char)) : List (List Bool) :=
  (List.range st.message_number).map fun i =>
    if i < S.length then demapBits (st.address + st.payload) (S.getD i [])
    else List.replicate (2 * (st.address + st.payload)) false

/-- Big-endian value of a bit list (`packbits` of one byte, and the byte-scale
accumulation, both consume bits most significant first). -/
def bitsToNat (bs : List Bool) : Nat :=
  bs.foldl (fun acc b => 2 * acc + b2n b) 0

/-- `byte_number = ceil(len(index_matrix[0]) / 8).astype(int)` of the decode
side, exact on integers as `(k + 7) / 8`. -/
def byteNumber2 (k : Nat) : Nat := (k + 7) / 8

/-- The decoded `order` of one matrix row: the first `address * 2` columns are
left-padded with zeros to whole bytes, packed with `packbits`, and accumulated
byte by byte, most significant byte first
(`orders = add(orders, mould[:, -1 - index] * (256 ** index), ...)`). -/
def orderOfRow (a : Nat) (r : List Bool) : Nat :=
  let k := a * 2
  let bn := byteNumber2 k
  let padded := List.replicate (8 * bn - k) false ++ r.take k
  (List.range bn).foldl
    (fun acc idx => acc + bitsToNat ((padded.drop (8 * (bn - 1 - idx))).take 8) * 256 ^ idx) 0

/-- The `order` a sequence decodes to. -/
def orderOfSeq (st : CoderState) (s : List Char) : Nat :=
  orderOfRow st.address (demapBits (st.address + st.payload) s)

/-- The payload columns (`binary_messages[:, self.address * 2:]`) a sequence
decodes to. -/
def payloadOfSeq (st : CoderState) (s : List Char) : List Bool :=
  (demapBits (st.address + st.payload) s).drop (st.address * 2)

/-- One step of the frame-table fill:
`if order < len(sorted_binary_messages): sorted_binary_messages[order] = ...`.
An out-of-range `order` leaves the table unchanged and raises nothing. -/
def place (st : CoderState) (table : List (List Bool)) (x : Nat × List Bool) :
    List (List Bool) :=
  if x.1 < st.message_number then table.set x.1 x.2 else table

/-- The `(order, payload)` pair of every row of `binary_messages`, in row
order. -/
def decodePairs (st : CoderState) (S : List (List Char)) : List (Nat × List Bool) :=
  (stage1Rows st S).map fun r => (orderOfRow st.address r, r.drop (st.address * 2))

/-- An all-zero payload frame (`sorted_binary_messages` row initialisation). -/
def zeroFrame (st : CoderState) : List Bool := List.replicate (2 * st.payload) false

/-- `sorted_binary_messages` after the placement loop: a left fold of
last-write-wins placements over the rows in input order. -/
def decodeTable (st : CoderState) (S : List (List Char)) : List (List Bool) :=
  (decodePairs st S).foldl (place st)
    (List.replicate st.message_number (zeroFrame st))

/-- `packbits` over a bit stream whose length is a multiple of 8, most
significant bit of each byte first. -/
def packBytes (bits : List Bool) : List Nat :=
  (List.range (bits.length / 8)).map fun i => bitsToNat ((bits.drop (8 * i)).take 8)

/-- How many bits of the flattened table survive `bits = bits[:-supplement]`.
Python slicing with a negative stop: for `supplement > 0` the last
`supplement` bits are dropped (all of them when `supplement ≥ len`), but for
`supplement = 0` the slice is `bits[:0]`, which keeps nothing. -/
def keptCount (st : CoderState) (bitsLen : Nat) : Nat :=
  if st.supplement = 0 then 0 else bitsLen - st.supplement

/-- The final byte output of `dna_to_image` from the filled frame table. -/
def outBytes (st : CoderState) (table : List (List Bool)) : List Nat :=
  let bits := table.flatten
  packBytes (bits.take (keptCount st bits.length))

/-- `dna_to_image`: `none` models the call raising
(`KeyError` for an unknown symbol, `IndexError` for a write past
`message_number` rows or for `index_matrix[0]` when `message_number = 0`,
numpy `OverflowError` when `256 ** index` exceeds the C int64 at
`byte_number ≥ 9`, and the reshape error when the kept bit count is not a
multiple of 8). -/
def dnaToImage (st : CoderState) (S : List (List Char)) : Option (List Nat) :=
  if stage1Ok st S then
    if st.message_number = 0 then none
    else if byteNumber2 (st.address * 2) ≤ 8 then
      if keptCount st ((decodeTable st S).flatten).length % 8 = 0 then
        some (outBytes st (decodeTable st S))
      else none
    else none
  else none

/-- Modelled from the spec words of the symbol-mapper claim only (not from the
source): the claimed encoder that consumes the concatenated bits two at a
time, adjacent pairs in order, mapping pair `(bit 2j, bit 2j+1)` to symbol
`j`. -/
def specAdjacentSymbols (row : List Bool) : List Char :=
  (List.range (row.length / 2)).map fun j =>
    symbolOfDigit (2 * b2n (row.getD (2 * j) false) + b2n (row.getD (2 * j + 1) false))

/-- Modelled from the spec words of the symbol-mapper claim only (not from the
source): each symbol expands to its fixed 2-bit pair, concatenated in symbol
order. -/
def specAdjacentBits (s : List Char) : List Bool :=
  s.flatMap fun c =>
    [((mapping c).getD (false, false)).1, ((mapping c).getD (false, false)).2]

/-! ### The index width computation -/

theorem clogAux_le_pow : ∀ fuel n, n ≤ fuel → n ≤ 256 ^ clogAux fuel n := by
  intro fuel
  induction fuel with
  | zero => intro n h; simp [clogAux]; omega
  | succ f ih =>
    intro n h
    by_cases h1 : n ≤ 1
    · simp [clogAux, h1]
    · have hm : (n + 255) / 256 < n := by omega
      have hrec := ih ((n + 255) / 256) (by omega)
      simp only [clogAux, h1, if_false]
      calc n ≤ 256 * ((n + 255) / 256) := by omega
        _ ≤ 256 * 256 ^ clogAux f ((n + 255) / 256) := by
              exact Nat.mul_le_mul_left 256 hrec
        _ = 256 ^ (clogAux f ((n + 255) / 256) + 1) := by rw [pow_succ]; ring

theorem le_pow_byteNumber (n : Nat) : n ≤ 256 ^ byteNumber n :=
  clogAux_le_pow n n le_rfl

theorem le_two_pow_byteNumber (n : Nat) : n ≤ 2 ^ (8 * byteNumber n) := by
  have h := le_pow_byteNumber n
  rwa [pow_mul, show (2 : Nat) ^ 8 = 256 by norm_num]

/-- A bit position is zero on all of `0 .. N-1` exactly when `N ≤ 2 ^ b`. -/
theorem unused_bit_iff (N b : Nat) :
    (∀ i, i < N → Nat.testBit i b = false) ↔ N ≤ 2 ^ b := by
  constructor
  · intro h
    by_contra hlt
    push_neg at hlt
    have htb := h (2 ^ b) hlt
    rw [Nat.testBit_two_pow_self] at htb
    exact Bool.true_eq_false.mp htb
  · intro h i hi
    exact Nat.testBit_lt_two_pow (lt_of_lt_of_le hi h)

theorem clog2_le_width (N : Nat) : Nat.clog 2 N ≤ 8 * byteNumber N :=
  (Nat.le_pow_iff_clog_le (by norm_num)).mp (le_two_pow_byteNumber N)

theorem colUnused_iff (N W j : Nat) (hj : j < W) (hW : Nat.clog 2 N ≤ W) :
    colUnused N W j = true ↔ j < W - Nat.clog 2 N := by
  unfold colUnused
  simp only [decide_eq_true_eq]
  rw [unused_bit_iff, Nat.le_pow_iff_clog_le (by norm_num)]
  omega

theorem filter_range_eq_range (p : Nat → Bool) : ∀ (W m : Nat), m ≤ W →
    (∀ j, j < W → (p j = true ↔ j < m)) → (List.range W).filter p = List.range m := by
  intro W
  induction W with
  | zero =>
    intro m hm _
    have hm0 : m = 0 := by omega
    simp [hm0]
  | succ W ih =>
    intro m hm h
    rw [List.range_succ, List.filter_append]
    by_cases hmW : m = W + 1
    · subst hmW
      have hpW : p W = true := (h W (by omega)).mpr (by omega)
      rw [ih W le_rfl (fun j hj => ⟨fun _ => hj, fun _ => (h j (by omega)).mpr (by omega)⟩)]
      simp [hpW, List.range_succ]
    · have hpW : p W = false := by
        rw [Bool.eq_false_iff]
        intro hP
        exact absurd ((h W (by omega)).mp hP) (by omega)
      rw [ih m (by omega) (fun j hj => h j (by omega))]
      simp [hpW]

theorem foldl_max_range : ∀ k : Nat,
    (List.range k).foldl (fun acc j => Nat.max acc (j + 1)) 0 = k := by
  intro k
  induction k with
  | zero => rfl
  | succ k ih =>
    rw [List.range_succ, List.foldl_append]
    simp only [List.foldl_cons, List.foldl_nil, ih]
    exact Nat.max_eq_right (by omega)

theorem startLocation_eq (N : Nat) :
    startLocation N = 8 * byteNumber N - Nat.clog 2 N := by
  unfold startLocation
  have hW := clog2_le_width N
  rw [filter_range_eq_range (colUnused N (8 * byteNumber N)) (8 * byteNumber N)
    (8 * byteNumber N - Nat.clog 2 N) (by omega)
    (fun j hj => colUnused_iff N _ j hj hW)]
  exact foldl_max_range _

/-- The procedural trim of all-zero leading columns leaves exactly
`ceil(log2 N)` bits. -/
theorem trimmedWidth_eq (N : Nat) : trimmedWidth N = Nat.clog 2 N := by
  unfold trimmedWidth
  rw [startLocation_eq]
  have := clog2_le_width N
  omega

theorem length_bigEndianBits (W i : Nat) : (bigEndianBits W i).length = W := by
  simp [bigEndianBits]

theorem getElem_bigEndianBits (W i j : Nat) (h : j < (bigEndianBits W i).length) :
    (bigEndianBits W i)[j] = i.testBit (W - 1 - j) := by
  simp [bigEndianBits]

theorem trimmedIndexBits_eq (N i : Nat) :
    trimmedIndexBits N i = bigEndianBits (Nat.clog 2 N) i := by
  have hW := clog2_le_width N
  apply List.ext_getElem
  · simp [trimmedIndexBits, length_bigEndianBits, startLocation_eq, length_bigEndianBits]
    omega
  · intro j h1 h2
    unfold trimmedIndexBits
    rw [List.getElem_drop, getElem_bigEndianBits, getElem_bigEndianBits]
    · congr 1
      have hlen1 : j < (trimmedIndexBits N i).length := h1
      simp [trimmedIndexBits, length_bigEndianBits, startLocation_eq] at hlen1
      rw [startLocation_eq]
      have hj2 : j < Nat.clog 2 N := by
        simpa [length_bigEndianBits] using h2
      omega

theorem getD_map_range {α : Type} (f : Nat → α) (d : α) {N i : Nat} (h : i < N) :
    ((List.range N).map f).getD i d = f i := by
  rw [List.getD_eq_getElem?_getD, List.getElem?_map, List.getElem?_range h]
  rfl

theorem paddedIndexBits_eq (a N i : Nat) (ha : trimmedWidth N ≤ a * 2) (hi : i < N) :
    paddedIndexBits a N i = bigEndianBits (a * 2) i := by
  have hc := trimmedWidth_eq N
  have hiN : i < 2 ^ Nat.clog 2 N :=
    lt_of_lt_of_le hi (Nat.le_pow_clog (by norm_num) N)
  unfold paddedIndexBits
  rw [trimmedIndexBits_eq]
  apply List.ext_getElem
  · simp [length_bigEndianBits]
    omega
  · intro j h1 h2
    rw [getElem_bigEndianBits]
    by_cases hj : j < a * 2 - Nat.clog 2 N
    · rw [List.getElem_append_left (by simp only [List.length_replicate]; omega)]
      rw [List.getElem_replicate]
      have hbit : Nat.clog 2 N ≤ a * 2 - 1 - j := by
        simp [length_bigEndianBits] at h2
        omega
      exact (Nat.testBit_lt_two_pow
        (lt_of_lt_of_le hiN (Nat.pow_le_pow_right (by norm_num) hbit))).symm
    · rw [List.getElem_append_right (by simp only [List.length_replicate]; omega)]
      rw [getElem_bigEndianBits]
      congr 1
      simp only [List.length_replicate, length_bigEndianBits] at h1 h2 ⊢
      omega

/-- C4, address sufficiency raises-iff: for `N ≥ 1` frames the index stage
raises (`ValueError`, producing no sequences) exactly when the configured
`address * 2` bits are fewer than the trimmed big-endian bit width needed for
the indices `0 .. N-1`, which is `ceil(log2 N)`; and on success every frame
`i < N` gets exactly `address * 2` index bits, the big-endian value `i`
left-padded with zeros. -/
theorem claim4_address_sufficiency (a N : Nat) (hN : 1 ≤ N) :
    (indexStage a N = none ↔ a * 2 < Nat.clog 2 N) ∧
    (∀ rows, indexStage a N = some rows →
      ∀ i, i < N → rows.getD i [] = bigEndianBits (a * 2) i) := by
  have hT := trimmedWidth_eq N
  constructor
  · constructor
    · intro h
      unfold indexStage at h
      split at h
      · omega
      · exact absurd h (by simp)
    · intro h
      unfold indexStage
      rw [if_pos (by omega)]
  · intro rows h i hi
    unfold indexStage at h
    split at h
    · cases h
    · injection h with h
      subst h
      rw [getD_map_range _ _ hi]
      exact paddedIndexBits_eq a N i (by omega) hi

/-- Witness for C4 at `N = 3`, `address = 1`: two address bits suffice for
three frames (the trimmed width is `ceil(log2 3) = 2`), and the three index
rows are the 2-bit big-endian values `0, 1, 2`. -/
theorem claim4_address_sufficiency_witness :
    (1 ≤ 3) ∧
    ((indexStage 1 3 = none ↔ 1 * 2 < Nat.clog 2 3) ∧
    (∀ rows, indexStage 1 3 = some rows →
      ∀ i, i < 3 → rows.getD i [] = bigEndianBits (1 * 2) i)) :=
  ⟨by decide, claim4_address_sufficiency 1 3 (by decide)⟩

/-! ### The symbol mapper -/

theorem mapRow_length (w : Nat) (row : List Bool) : (mapRow w row).length = w := by
  simp [mapRow]

theorem mapRow_get? (w : Nat) (row : List Bool) {j : Nat} (hj : j < w) :
    (mapRow w row).get? j =
      some (symbolOfDigit (2 * b2n (row.getD j false) + b2n (row.getD (w + j) false))) := by
  simp [mapRow, List.get?_eq_getElem?, List.getElem?_map, List.getElem?_range hj]

theorem mapping_symbolOfDigit (x y : Bool) :
    mapping (symbolOfDigit (2 * b2n x + b2n y)) = some (x, y) := by
  cases x <;> cases y <;> rfl

theorem isSome_mapping_symbolOfDigit (d : Nat) :
    (mapping (symbolOfDigit d)).isSome = true := by
  unfold symbolOfDigit
  split
  · decide
  · split
    · decide
    · split <;> decide

theorem demapBits_length (w : Nat) (s : List Char) : (demapBits w s).length = w + w := by
  simp [demapBits]

theorem demapBits_mapRow (w : Nat) (row : List Bool) (hrow : row.length = 2 * w) :
    demapBits w (mapRow w row) = row := by
  apply List.ext_getElem
  · simp [demapBits, hrow]
    omega
  · intro j h1 h2
    rw [demapBits_length] at h1
    unfold demapBits
    by_cases hj : j < w
    · rw [List.getElem_append_left (by simpa using hj)]
      simp only [List.getElem_map, List.getElem_range]
      rw [mapRow_get? w row hj]
      simp only [mapping_symbolOfDigit, Option.getD_some]
      simp [List.getD_eq_getElem?_getD, List.getElem?_eq_getElem (show j < row.length by omega)]
    · rw [List.getElem_append_right (by simpa using hj)]
      simp only [List.getElem_map, List.getElem_range, List.length_map, List.length_range]
      rw [mapRow_get? w row (show j - w < w by omega)]
      simp only [mapping_symbolOfDigit, Option.getD_some]
      have hwj : w + (j - w) = j := by omega
      rw [hwj]
      simp [List.getD_eq_getElem?_getD, List.getElem?_eq_getElem (show j < row.length by omega)]

theorem seqValid_mapRow (w : Nat) (row : List Bool) :
    seqValid w (mapRow w row) = true := by
  unfold seqValid
  rw [List.take_of_length_le (by rw [mapRow_length])]
  rw [List.all_eq_true]
  intro c hc
  obtain ⟨j, -, hcj⟩ := List.mem_map.mp hc
  rw [← hcj]
  exact isSome_mapping_symbolOfDigit _

/-- C3 amended: the encoder does not consume adjacent bit pairs; instead, for
a frame row of `2 * w` bits (`w = address_width + payload_width` symbols),
output symbol `j` is the image under the fixed table of the bit pair
`(bit j, bit w + j)` — the `j`-th bits of the two halves of the row.  All
produced symbols are in the alphabet, and the decoder demap loop inverts the
layout exactly, so the full `2 * address_width`-bit address block and the
`2 * payload_width`-bit payload block are recovered as the two parts of the
reconstructed row. -/
theorem claim3_amended (w : Nat) (row : List Bool) (hrow : row.length = 2 * w) :
    (mapRow w row).length = w ∧
    (∀ j, j < w → (mapRow w row).get? j =
      some (symbolOfDigit (2 * b2n (row.getD j false) + b2n (row.getD (w + j) false)))) ∧
    seqValid w (mapRow w row) = true ∧
    demapBits w (mapRow w row) = row :=
  ⟨mapRow_length w row, fun _ hj => mapRow_get? w row hj,
    seqValid_mapRow w row, demapBits_mapRow w row hrow⟩

/-- Witness for the amended C3 at `w = 1`, `row = [true, false]`: the single
symbol is `G` (pair `(1,0)`), and demapping returns the row. -/
theorem claim3_amended_witness :
    ([true, false].length = 2 * 1) ∧
    ((mapRow 1 [true, false]).length = 1 ∧
    (∀ j, j < 1 → (mapRow 1 [true, false]).get? j =
      some (symbolOfDigit (2 * b2n ([true, false].getD j false) +
        b2n ([true, false].getD (1 + j) false)))) ∧
    seqValid 1 (mapRow 1 [true, false]) = true ∧
    demapBits 1 (mapRow 1 [true, false]) = [true, false]) :=
  ⟨by decide, claim3_amended 1 [true, false] (by decide)⟩

/-! ### The padding stage -/

set_option maxRecDepth 40000

/-- C6, padding bound: whenever `image_to_dna` succeeds, the recorded
`supplement` satisfies `0 ≤ s < 2 * payload_width`, equals
`2 * payload_width - L % (2 * payload_width)` when the input bit length `L`
is not a multiple of `2 * payload_width`, and is `0` exactly when `L` is such
a multiple. -/
theorem claim6_padding_bound (a : Nat) (B : List Nat) (seqs : List (List Char))
    (st : CoderState) (h : imageToDna a B = some (seqs, st)) :
    st.supplement < 2 * st.payload ∧
    ((bytesToBits B).length % (2 * st.payload) ≠ 0 →
      st.supplement = 2 * st.payload - (bytesToBits B).length % (2 * st.payload)) ∧
    (st.supplement = 0 ↔ (bytesToBits B).length % (2 * st.payload) = 0) := by
  have hst : st.payload = 128 ∧ st.supplement = supplementOf 128 (bytesToBits B).length := by
    unfold imageToDna at h
    cases hE : encodeRows a B with
    | none => rw [hE] at h; cases h
    | some rows =>
      rw [hE] at h
      simp only [Option.some.injEq, Prod.mk.injEq] at h
      rw [← h.2]
      exact ⟨rfl, rfl⟩
  obtain ⟨hp, hs⟩ := hst
  rw [hp, hs]
  unfold supplementOf
  refine ⟨?_, ?_, ?_⟩
  · split <;> omega
  · intro hne
    split <;> omega
  · split <;> omega

/-- Witness for C6 on the 1-byte input `0xFF`: the bit length is 8, so the
recorded supplement is `256 - 8 = 248`. -/
theorem claim6_padding_bound_witness :
    (imageToDna 12 [255] = some
      ([List.replicate 24 'A' ++ List.replicate 8 'G' ++ List.replicate 108 'A'],
        ⟨12, 128, 248, 1⟩)) ∧
    ((⟨12, 128, 248, 1⟩ : CoderState).supplement < 2 * (⟨12, 128, 248, 1⟩ : CoderState).payload ∧
    ((bytesToBits [255]).length % (2 * (⟨12, 128, 248, 1⟩ : CoderState).payload) ≠ 0 →
      (⟨12, 128, 248, 1⟩ : CoderState).supplement =
        2 * (⟨12, 128, 248, 1⟩ : CoderState).payload -
          (bytesToBits [255]).length % (2 * (⟨12, 128, 248, 1⟩ : CoderState).payload)) ∧
    ((⟨12, 128, 248, 1⟩ : CoderState).supplement = 0 ↔
      (bytesToBits [255]).length % (2 * (⟨12, 128, 248, 1⟩ : CoderState).payload) = 0)) :=
  ⟨by decide, claim6_padding_bound 12 [255]
    [List.replicate 24 'A' ++ List.replicate 8 'G' ++ List.replicate 108 'A']
    ⟨12, 128, 248, 1⟩ (by decide)⟩

/-! ### The order accumulation -/

theorem bitsToNat_foldl (l : List Bool) : ∀ acc : Nat,
    l.foldl (fun acc b => 2 * acc + b2n b) acc = acc * 2 ^ l.length + bitsToNat l := by
  induction l with
  | nil => intro acc; simp [bitsToNat]
  | cons b t ih =>
    intro acc
    have h2 : bitsToNat (b :: t) = b2n b * 2 ^ t.length + bitsToNat t := by
      show (b :: t).foldl (fun acc b => 2 * acc + b2n b) 0 = _
      rw [List.foldl_cons, ih (2 * 0 + b2n b)]
      ring
    simp only [List.foldl_cons, List.length_cons]
    rw [ih (2 * acc + b2n b), h2]
    ring

theorem bitsToNat_append (xs ys : List Bool) :
    bitsToNat (xs ++ ys) = bitsToNat xs * 2 ^ ys.length + bitsToNat ys := by
  show (xs ++ ys).foldl (fun acc b => 2 * acc + b2n b) 0 = _
  rw [List.foldl_append]
  exact bitsToNat_foldl ys (bitsToNat xs)

theorem bitsToNat_replicate_false (n : Nat) :
    bitsToNat (List.replicate n false) = 0 := by
  induction n with
  | zero => rfl
  | succ n ih =>
    rw [List.replicate_succ]
    show List.foldl _ (2 * 0 + b2n false) _ = 0
    simpa [bitsToNat, b2n] using ih

theorem bitsToNat_zero_prefix (m : Nat) (l : List Bool) :
    bitsToNat (List.replicate m false ++ l) = bitsToNat l := by
  rw [bitsToNat_append, bitsToNat_replicate_false]
  simp

theorem chunk_foldl_eq_bitsToNat : ∀ (bn : Nat) (L : List Bool), L.length = 8 * bn →
    (List.range bn).foldl
      (fun acc idx => acc + bitsToNat ((L.drop (8 * (bn - 1 - idx))).take 8) * 256 ^ idx) 0
      = bitsToNat L := by
  intro bn
  induction bn with
  | zero =>
    intro L hL
    have hnil : L = [] := List.eq_nil_of_length_eq_zero (by omega)
    subst hnil
    rfl
  | succ bn ih =>
    intro L hL
    rw [List.range_succ, List.foldl_append]
    have hdrop : (L.drop 8).length = 8 * bn := by
      rw [List.length_drop]
      omega
    have hinner : (List.range bn).foldl
        (fun acc idx => acc + bitsToNat ((L.drop (8 * (bn + 1 - 1 - idx))).take 8) * 256 ^ idx) 0
        = bitsToNat (L.drop 8) := by
      rw [← ih (L.drop 8) hdrop]
      apply List.foldl_ext
      intro acc idx hidx
      have hsplit : 8 * (bn + 1 - 1 - idx) = 8 + 8 * (bn - 1 - idx) := by
        have := List.mem_range.mp hidx
        omega
      rw [hsplit, ← List.drop_drop]
    rw [hinner]
    simp only [List.foldl_cons, List.foldl_nil]
    have hchunk : 8 * (bn + 1 - 1 - bn) = 0 := by omega
    rw [hchunk, List.drop_zero]
    conv_rhs => rw [← List.take_append_drop 8 L]
    rw [bitsToNat_append, hdrop]
    have hpow : (2 : Nat) ^ (8 * bn) = 256 ^ bn := by
      rw [pow_mul]
      norm_num
    rw [hpow]
    ring

theorem orderOfRow_eq (a : Nat) (r : List Bool) (h : a * 2 ≤ r.length) :
    orderOfRow a r = bitsToNat (r.take (a * 2)) := by
  have hk : (r.take (a * 2)).length = a * 2 := by
    simp
    omega
  have hpad : (List.replicate (8 * byteNumber2 (a * 2) - a * 2) false ++ r.take (a * 2)).length
      = 8 * byteNumber2 (a * 2) := by
    simp only [List.length_append, List.length_replicate, hk, byteNumber2]
    omega
  show (List.range (byteNumber2 (a * 2))).foldl _ 0 = _
  rw [chunk_foldl_eq_bitsToNat _ _ hpad]
  exact bitsToNat_zero_prefix _ _

/-! ### The frame table fill -/

theorem getD_set_self {α : Type} (t : List α) (i : Nat) (v z : α) (h : i < t.length) :
    (t.set i v).getD i z = v := by
  rw [List.getD_eq_getElem?_getD, List.getElem?_set_self h]
  rfl

theorem getD_set_ne {α : Type} (t : List α) (i j : Nat) (v z : α) (h : i ≠ j) :
    (t.set i v).getD j z = t.getD j z := by
  rw [List.getD_eq_getElem?_getD, List.getElem?_set_ne h, ← List.getD_eq_getElem?_getD]

theorem getD_replicate {α : Type} (n i : Nat) (v z : α) (h : i < n) :
    (List.replicate n v).getD i z = v := by
  rw [List.getD_eq_getElem?_getD, List.getElem?_replicate_of_lt h]
  rfl

theorem place_length (st : CoderState) (t : List (List Bool)) (x : Nat × List Bool) :
    (place st t x).length = t.length := by
  unfold place
  split <;> simp

theorem foldl_place_length (st : CoderState) :
    ∀ (xs : List (Nat × List Bool)) (t : List (List Bool)),
      (xs.foldl (place st) t).length = t.length := by
  intro xs
  induction xs with
  | nil => intro t; rfl
  | cons x xs ih =>
    intro t
    rw [List.foldl_cons, ih, place_length]

/-- Pointwise description of the placement loop: slot `j` holds the payload of
the last row whose order is `j`, or its previous content if no row targets
it. -/
theorem foldl_place_getD (st : CoderState) :
    ∀ (xs : List (Nat × List Bool)) (t : List (List Bool)) (j : Nat) (z : List Bool),
      j < st.message_number → t.length = st.message_number →
      (xs.foldl (place st) t).getD j z =
        (match (xs.filter fun x => x.1 == j).getLast? with
        | some x => x.2
        | none => t.getD j z) := by
  intro xs
  induction xs with
  | nil =>
    intro t j z hj ht
    rfl
  | cons x xs ih =>
    intro t j z hj ht
    rw [List.foldl_cons, ih (place st t x) j z hj (by rw [place_length]; exact ht)]
    by_cases hx : x.1 = j
    · have hplace : (place st t x).getD j z = x.2 := by
        unfold place
        rw [if_pos (by omega)]
        rw [← hx]
        exact getD_set_self t x.1 x.2 z (by omega)
      have hfil : ((x :: xs).filter fun y => y.1 == j) =
          x :: (xs.filter fun y => y.1 == j) := by
        simp [List.filter_cons, hx]
      rw [hfil]
      rcases hfx : (xs.filter fun y => y.1 == j) with _ | ⟨h0, t0⟩
      · rw [hfx]
        simp only [List.getLast?_nil, List.getLast?_singleton]
        exact hplace
      · rw [hfx, List.getLast?_cons_cons]
        cases hlast : (h0 :: t0).getLast? with
        | none => exact absurd hlast (by simp)
        | some y => rfl
    · have hplace : (place st t x).getD j z = t.getD j z := by
        unfold place
        split
        · exact getD_set_ne t x.1 j x.2 z hx
        · rfl
      have hfil : ((x :: xs).filter fun y => y.1 == j) =
          xs.filter fun y => y.1 == j := by
        simp [List.filter_cons, hx]
      rw [hfil, hplace]

/-! ### Structure of the demapped matrix -/

theorem stage1Rows_length (st : CoderState) (S : List (List Char)) :
    (stage1Rows st S).length = st.message_number := by
  simp [stage1Rows]

/-- The demapped matrix is the demapped input rows (at most `message_number`
of them) followed by the untouched all-zero rows. -/
theorem stage1Rows_decomp (st : CoderState) (S : List (List Char)) :
    stage1Rows st S =
      (S.take st.message_number).map (demapBits (st.address + st.payload)) ++
      List.replicate (st.message_number - S.length)
        (List.replicate (2 * (st.address + st.payload)) false) := by
  apply List.ext_getElem
  · simp [stage1Rows]
    omega
  · intro i h1 h2
    rw [stage1Rows_length] at h1
    simp only [stage1Rows, List.getElem_map, List.getElem_range]
    by_cases hi : i < S.length
    · rw [if_pos hi]
      rw [List.getElem_append_left (by simp; omega)]
      rw [List.getElem_map, List.getElem_take]
      congr 1
      rw [List.getD_eq_getElem?_getD, List.getElem?_eq_getElem hi]
      rfl
    · rw [if_neg hi]
      rw [List.getElem_append_right (by simp; omega)]
      rw [List.getElem_replicate]

theorem decodePairs_decomp (st : CoderState) (S : List (List Char)) :
    decodePairs st S =
      (S.take st.message_number).map (fun s => (orderOfSeq st s, payloadOfSeq st s)) ++
      List.replicate (st.message_number - S.length) (0, zeroFrame st) := by
  unfold decodePairs
  rw [stage1Rows_decomp, List.map_append, List.map_map, List.map_replicate]
  congr 1
  have horder : orderOfRow st.address
      (List.replicate (2 * (st.address + st.payload)) false) = 0 := by
    rw [orderOfRow_eq _ _ (by simp; omega)]
    rw [List.take_replicate]
    rw [bitsToNat_replicate_false]
  have hdrop : (List.replicate (2 * (st.address + st.payload)) false).drop
      (st.address * 2) = zeroFrame st := by
    rw [List.drop_replicate]
    unfold zeroFrame
    congr 1
    omega
  rw [horder, hdrop]

/-- With at most `message_number` input sequences the demap loop can only
raise on an unknown symbol, so `stage1Ok` is character validity of every
sequence. -/
theorem stage1Ok_of_le (st : CoderState) (S : List (List Char))
    (h : S.length ≤ st.message_number) :
    stage1Ok st S = S.all (seqValid (st.address + st.payload)) := by
  cases hall : S.all (seqValid (st.address + st.payload)) with
  | true =>
    unfold stage1Ok
    rw [List.all_eq_true] at hall ⊢
    intro i hi
    have hilt : i < S.length := List.mem_range.mp hi
    have hvalid : seqValid (st.address + st.payload) (S[i]?.getD []) = true := by
      rw [List.getElem?_eq_getElem hilt]
      exact hall _ (List.getElem_mem hilt)
    simp [List.getD_eq_getElem?_getD, hvalid, show i < st.message_number by omega]
  | false =>
    unfold stage1Ok
    rw [List.all_eq_false] at hall ⊢
    obtain ⟨s, hs, hbad⟩ := hall
    obtain ⟨i, hilt, rfl⟩ := List.mem_iff_getElem.mp hs
    refine ⟨i, List.mem_range.mpr hilt, ?_⟩
    have hD : S[i]?.getD ([] : List Char) = S[i] := by
      rw [List.getElem?_eq_getElem hilt]
      rfl
    simp [List.getD_eq_getElem?_getD, hD, hbad]

/-! ### Silent drop of out-of-range addresses and list-length overflow -/

/-- C8, silent drop: a sequence whose decoded `order` is at least
`frame_count` contributes nothing — its placement step returns the frame
table unchanged (and raises nothing; the placement loop of the model has no
failure path) — and a frame slot that no input sequence addresses is left as
the all-zero frame by the completed table. -/
theorem claim8_out_of_range_dropped :
    (∀ (st : CoderState) (table : List (List Bool)) (s : List Char),
      st.message_number ≤ orderOfSeq st s →
      place st table (orderOfSeq st s, payloadOfSeq st s) = table) ∧
    (∀ (st : CoderState) (S : List (List Char)) (j : Nat),
      j < st.message_number →
      (∀ s ∈ S, orderOfSeq st s ≠ j) →
      (decodeTable st S).getD j (zeroFrame st) = zeroFrame st) := by
  constructor
  · intro st table s h
    unfold place
    rw [if_neg (by simp; omega)]
  · intro st S j hj hnone
    unfold decodeTable
    rw [foldl_place_getD st _ _ j _ hj (by simp)]
    rw [decodePairs_decomp, List.filter_append]
    have hreal : (((S.take st.message_number).map
        (fun s => (orderOfSeq st s, payloadOfSeq st s))).filter
          (fun x => x.1 == j)) = [] := by
      rw [List.filter_eq_nil_iff]
      intro x hx
      obtain ⟨s, hs, rfl⟩ := List.mem_map.mp hx
      have := hnone s (List.mem_of_mem_take hs)
      simp [this]
    rw [hreal, List.nil_append]
    by_cases hj0 : j = 0
    · subst hj0
      rw [List.filter_replicate_of_pos (by simp)]
      rw [List.getLast?_replicate]
      by_cases hm : st.message_number - S.length = 0
      · rw [if_pos hm]
        exact getD_replicate _ _ _ _ hj
      · rw [if_neg hm]
    · rw [List.filter_replicate_of_neg (by simpa using Ne.symm hj0)]
      simp only [List.getLast?_nil]
      exact getD_replicate _ _ _ _ hj

/-- Witness for C8 with `frame_count = 2`: a sequence decoding to order 3 is
a no-op on the table, and slot `1`, targeted by no sequence, stays all
zero. -/
theorem claim8_out_of_range_dropped_witness :
    (2 ≤ orderOfSeq ⟨1, 8, 16, 2⟩ ['T','T','A','A','A','A','A','A','A'] ∧
      place ⟨1, 8, 16, 2⟩ [[true], [false]]
        (orderOfSeq ⟨1, 8, 16, 2⟩ ['T','T','A','A','A','A','A','A','A'],
          payloadOfSeq ⟨1, 8, 16, 2⟩ ['T','T','A','A','A','A','A','A','A']) =
        [[true], [false]]) ∧
    (1 < 2 ∧
      (∀ s ∈ [['T','T','A','A','A','A','A','A','A']],
        orderOfSeq ⟨1, 8, 16, 2⟩ s ≠ 1) ∧
      (decodeTable ⟨1, 8, 16, 2⟩ [['T','T','A','A','A','A','A','A','A']]).getD 1
        (zeroFrame ⟨1, 8, 16, 2⟩) = zeroFrame ⟨1, 8, 16, 2⟩) :=
  ⟨⟨by decide, claim8_out_of_range_dropped.1 ⟨1, 8, 16, 2⟩ [[true], [false]]
      ['T','T','A','A','A','A','A','A','A'] (by decide)⟩,
    ⟨by decide, by decide, claim8_out_of_range_dropped.2 ⟨1, 8, 16, 2⟩
      [['T','T','A','A','A','A','A','A','A']] 1 (by decide) (by decide)⟩⟩

/-- C10, list-length overflow: `dna_to_image` on a list of proper sequences
(each of the nonzero length `address + payload`) that is longer than the
stored `message_number` fails — the write for the sequence at position
`message_number` goes out of bounds of the fixed `message_number`-row matrix
before any output is produced — instead of last-write-wins being applied to
the surplus sequences. -/
theorem claim10_length_overflow (st : CoderState) (S : List (List Char))
    (hlen : ∀ s ∈ S, s.length = st.address + st.payload)
    (hpos : 0 < st.address + st.payload)
    (hover : st.message_number < S.length) :
    dnaToImage st S = none := by
  have hok : stage1Ok st S = false := by
    unfold stage1Ok
    rw [List.all_eq_false]
    refine ⟨st.message_number, List.mem_range.mpr hover, ?_⟩
    have hne : S[st.message_number] ≠ [] := by
      intro hnil
      have := hlen _ (List.getElem_mem hover)
      rw [hnil] at this
      simp at this
      omega
    simp [List.getD_eq_getElem?_getD, List.getElem?_eq_getElem hover, hne]
  unfold dnaToImage
  rw [hok]
  rfl

/-- Witness for C10: two 2-character sequences against `message_number = 1`
make decode fail. -/
theorem claim10_length_overflow_witness :
    (∀ s ∈ [['A','A'], ['A','A']], s.length =
      (⟨1, 1, 2, 1⟩ : CoderState).address + (⟨1, 1, 2, 1⟩ : CoderState).payload) ∧
    0 < (⟨1, 1, 2, 1⟩ : CoderState).address + (⟨1, 1, 2, 1⟩ : CoderState).payload ∧
    (⟨1, 1, 2, 1⟩ : CoderState).message_number < ([['A','A'], ['A','A']] : List (List Char)).length ∧
    dnaToImage ⟨1, 1, 2, 1⟩ [['A','A'], ['A','A']] = none :=
  ⟨by decide, by decide, by decide,
    claim10_length_overflow ⟨1, 1, 2, 1⟩ [['A','A'], ['A','A']]
      (by decide) (by decide) (by decide)⟩

/-! ### Row lengths of the frame table -/

theorem payloadOfSeq_length (st : CoderState) (s : List Char) :
    (payloadOfSeq st s).length = 2 * st.payload := by
  unfold payloadOfSeq
  rw [List.length_drop, demapBits_length]
  omega

theorem zeroFrame_length (st : CoderState) : (zeroFrame st).length = 2 * st.payload := by
  simp [zeroFrame]

theorem decodePairs_snd_length (st : CoderState) (S : List (List Char)) :
    ∀ x ∈ decodePairs st S, x.2.length = 2 * st.payload := by
  intro x hx
  rw [decodePairs_decomp] at hx
  rcases List.mem_append.mp hx with hx | hx
  · obtain ⟨s, -, rfl⟩ := List.mem_map.mp hx
    exact payloadOfSeq_length st s
  · rw [List.eq_of_mem_replicate hx]
    exact zeroFrame_length st

theorem foldl_place_row_length (st : CoderState) :
    ∀ (xs : List (Nat × List Bool)) (t : List (List Bool)),
      (∀ r ∈ t, r.length = 2 * st.payload) →
      (∀ x ∈ xs, x.2.length = 2 * st.payload) →
      ∀ r ∈ xs.foldl (place st) t, r.length = 2 * st.payload := by
  intro xs
  induction xs with
  | nil => intro t ht _ r hr; exact ht r hr
  | cons x xs ih =>
    intro t ht hxs r hr
    rw [List.foldl_cons] at hr
    refine ih (place st t x) ?_ (fun y hy => hxs y (List.mem_cons_of_mem _ hy)) r hr
    intro r' hr'
    unfold place at hr'
    split at hr'
    · rcases List.mem_or_eq_of_mem_set hr' with h | h
      · exact ht r' h
      · rw [h]
        exact hxs x (List.mem_cons_self _ _)
    · exact ht r' hr'

theorem decodeTable_length (st : CoderState) (S : List (List Char)) :
    (decodeTable st S).length = st.message_number := by
  unfold decodeTable
  rw [foldl_place_length]
  simp

theorem decodeTable_row_length (st : CoderState) (S : List (List Char)) :
    ∀ r ∈ decodeTable st S, r.length = 2 * st.payload := by
  apply foldl_place_row_length
  · intro r hr
    rw [List.eq_of_mem_replicate hr]
    exact zeroFrame_length st
  · exact decodePairs_snd_length st S

theorem decodeTable_flatten_length (st : CoderState) (S : List (List Char)) :
    ((decodeTable st S).flatten).length = st.message_number * (2 * st.payload) := by
  rw [List.length_flatten]
  have hmap : (decodeTable st S).map List.length =
      List.replicate st.message_number (2 * st.payload) := by
    rw [List.eq_replicate_iff]
    constructor
    · rw [List.length_map, decodeTable_length]
    · intro l hl
      obtain ⟨r, hr, rfl⟩ := List.mem_map.mp hl
      exact decodeTable_row_length st S r hr
  rw [hmap, List.sum_const_nat]

/-! ### Unknown symbols -/

/-- C7 amended: with the failure modes that do not involve symbols excluded —
the list no longer than `frame_count` (no out-of-bounds write), an address
short enough for the int64 byte accumulation, and a byte-aligned kept bit
count — `dna_to_image` fails exactly when some sequence has a character
outside `{A, C, G, T}` among its first `address + payload` characters.
Characters beyond that prefix are sliced off by
`dna_sequence[:self.address + self.payload]` and can never cause a failure. -/
theorem claim7_amended (st : CoderState) (S : List (List Char))
    (hlen : S.length ≤ st.message_number) (hN : 0 < st.message_number)
    (hbn : byteNumber2 (st.address * 2) ≤ 8)
    (hmod : keptCount st (st.message_number * (2 * st.payload)) % 8 = 0) :
    (dnaToImage st S = none ↔
      ∃ s ∈ S, ∃ c ∈ s.take (st.address + st.payload), mapping c = none) := by
  unfold dnaToImage
  rw [stage1Ok_of_le st S hlen]
  cases hall : S.all (seqValid (st.address + st.payload)) with
  | true =>
    rw [if_pos rfl, if_neg (by omega), if_pos hbn]
    rw [decodeTable_flatten_length, if_pos hmod]
    constructor
    · intro h
      exact absurd h (by simp)
    · rintro ⟨s, hs, c, hc, hbad⟩
      rw [List.all_eq_true] at hall
      have hv := hall s hs
      unfold seqValid at hv
      rw [List.all_eq_true] at hv
      have := hv c hc
      rw [hbad] at this
      simp at this
  | false =>
    rw [if_neg (by simp)]
    constructor
    · intro _
      rw [List.all_eq_false] at hall
      obtain ⟨s, hs, hbad⟩ := hall
      have hb2 : ((s.take (st.address + st.payload)).all
          fun c => (mapping c).isSome) = false := by
        unfold seqValid at hbad
        exact Bool.eq_false_iff.mpr hbad
      rw [List.all_eq_false] at hb2
      obtain ⟨c, hc, hcbad⟩ := hb2
      exact ⟨s, hs, c, hc, Option.not_isSome_iff_eq_none.mp (by simpa using hcbad)⟩
    · intro _
      rfl

/-- Witness for the amended C7 with one sequence holding a bad character
inside the demapped prefix: decode fails. -/
theorem claim7_amended_witness :
    (([['A','X']] : List (List Char)).length ≤ 1 ∧ 0 < 1 ∧
      byteNumber2 (1 * 2) ≤ 8 ∧
      keptCount ⟨1, 1, 2, 1⟩ (1 * (2 * 1)) % 8 = 0) ∧
    (dnaToImage ⟨1, 1, 2, 1⟩ [['A','X']] = none ↔
      ∃ s ∈ ([['A','X']] : List (List Char)), ∃ c ∈ s.take (1 + 1), mapping c = none) :=
  ⟨⟨by decide, by decide, by decide, by decide⟩,
    claim7_amended ⟨1, 1, 2, 1⟩ [['A','X']] (by decide) (by decide) (by decide) (by decide)⟩

/-- C7 counterexample: the claim as stated says a non-alphabet character at
any position of any input sequence makes decode fail, but a character past
position `address + payload - 1` is sliced away: here the sequence
`"AAX"` with state `(address, payload) = (1, 1)` contains `X`, yet decode
succeeds and returns a byte buffer. -/
theorem claim7_counterexample :
    (∃ s ∈ ([['A','A','X']] : List (List Char)), ∃ c ∈ s, mapping c = none) ∧
    dnaToImage ⟨1, 1, 2, 1⟩ [['A','A','X']] = some [] := by
  constructor
  · exact ⟨['A','A','X'], by decide, 'X', by decide, by decide⟩
  · decide

/-! ### Order independence -/

theorem filter_pairs_le_one (st : CoderState) (S : List (List Char)) (j : Nat)
    (hj : j < st.message_number)
    (hdup : ((S.map (orderOfSeq st)).filter
      (fun o => decide (o < st.message_number))).Nodup) :
    ((S.map (fun s => (orderOfSeq st s, payloadOfSeq st s))).filter
      (fun x => x.1 == j)).length ≤ 1 := by
  have hcnt : List.count j ((S.map (orderOfSeq st)).filter
      (fun o => decide (o < st.message_number))) ≤ 1 :=
    List.nodup_iff_count_le_one.mp hdup j
  rw [List.count_filter (by simpa using hj)] at hcnt
  rw [List.count_eq_countP, List.countP_map] at hcnt
  rw [← List.countP_eq_length_filter, List.countP_map]
  exact hcnt

theorem perm_filter_pairs_eq (st : CoderState) {S T : List (List Char)}
    (hperm : S.Perm T) (j : Nat) (hj : j < st.message_number)
    (hdup : ((S.map (orderOfSeq st)).filter
      (fun o => decide (o < st.message_number))).Nodup) :
    ((S.map (fun s => (orderOfSeq st s, payloadOfSeq st s))).filter
      (fun x => x.1 == j)) =
    ((T.map (fun s => (orderOfSeq st s, payloadOfSeq st s))).filter
      (fun x => x.1 == j)) := by
  have hp : ((S.map (fun s => (orderOfSeq st s, payloadOfSeq st s))).filter
      (fun x => x.1 == j)).Perm
      ((T.map (fun s => (orderOfSeq st s, payloadOfSeq st s))).filter
        (fun x => x.1 == j)) :=
    (hperm.map _).filter _
  have hlen := filter_pairs_le_one st S j hj hdup
  rcases hfS : (S.map (fun s => (orderOfSeq st s, payloadOfSeq st s))).filter
      (fun x => x.1 == j) with _ | ⟨x, rest⟩
  · rw [hfS] at hp
    rw [hfS]
    exact (List.Perm.eq_nil hp.symm).symm
  · rw [hfS] at hp hlen
    rw [hfS]
    have hrest : rest = [] := by
      cases rest with
      | nil => rfl
      | cons y t => simp at hlen
    subst hrest
    exact List.singleton_perm.mp hp

/-- C2 amended: decode is order independent on lists that are no longer than
`frame_count` and whose in-range decoded addresses are pairwise distinct.
(On longer lists the out-of-bounds failure depends on positions, and with
duplicate in-range addresses last-write-wins makes the result depend on the
input order, as the counterexample shows.) -/
theorem claim2_amended (st : CoderState) (S T : List (List Char))
    (hperm : S.Perm T) (hlen : S.length ≤ st.message_number)
    (hdup : ((S.map (orderOfSeq st)).filter
      (fun o => decide (o < st.message_number))).Nodup) :
    dnaToImage st S = dnaToImage st T := by
  have hlenT : T.length ≤ st.message_number := hperm.length_eq ▸ hlen
  have hallEq : S.all (seqValid (st.address + st.payload)) =
      T.all (seqValid (st.address + st.payload)) := by
    cases hS : S.all (seqValid (st.address + st.payload)) with
    | true =>
      symm
      rw [List.all_eq_true] at hS ⊢
      intro x hx
      exact hS x (hperm.mem_iff.mpr hx)
    | false =>
      symm
      rw [List.all_eq_false] at hS ⊢
      obtain ⟨s, hs, hb⟩ := hS
      exact ⟨s, hperm.mem_iff.mp hs, hb⟩
  have htable : decodeTable st S = decodeTable st T := by
    apply List.ext_getElem
    · rw [decodeTable_length, decodeTable_length]
    · intro j h1 h2
      rw [decodeTable_length] at h1
      have hb1 : j < (decodeTable st S).length := by
        rw [decodeTable_length]
        exact h1
      have hb2 : j < (decodeTable st T).length := by
        rw [decodeTable_length]
        exact h1
      have e1 : (decodeTable st S)[j] =
          (decodeTable st S).getD j (zeroFrame st) := by
        rw [List.getD_eq_getElem?_getD,
          List.getElem?_eq_getElem (by rw [decodeTable_length]; exact h1)]
        rfl
      have e2 : (decodeTable st T)[j] =
          (decodeTable st T).getD j (zeroFrame st) := by
        rw [List.getD_eq_getElem?_getD,
          List.getElem?_eq_getElem (by rw [decodeTable_length]; exact h1)]
        rfl
      rw [e1, e2]
      unfold decodeTable
      rw [foldl_place_getD st _ _ j _ h1 (by simp),
        foldl_place_getD st _ _ j _ h1 (by simp)]
      rw [decodePairs_decomp, decodePairs_decomp]
      rw [List.take_of_length_le hlen, List.take_of_length_le hlenT]
      rw [List.filter_append, List.filter_append]
      rw [perm_filter_pairs_eq st hperm j h1 hdup, hperm.length_eq]
  unfold dnaToImage
  rw [stage1Ok_of_le st S hlen, stage1Ok_of_le st T hlenT, hallEq, htable]

/-- Witness for the amended C2: two sequences with distinct in-range
addresses 0 and 1 decode to the same bytes in either order. -/
theorem claim2_amended_witness :
    ((([['C','A','A','A','A','A','A','A','A'], ['A','G','A','A','A','A','A','A','A']] :
        List (List Char)).Perm
      [['A','G','A','A','A','A','A','A','A'], ['C','A','A','A','A','A','A','A','A']]) ∧
      ([['C','A','A','A','A','A','A','A','A'], ['A','G','A','A','A','A','A','A','A']] :
        List (List Char)).length ≤ 2 ∧
      ((([['C','A','A','A','A','A','A','A','A'], ['A','G','A','A','A','A','A','A','A']] :
        List (List Char)).map (orderOfSeq ⟨1, 8, 16, 2⟩)).filter
          (fun o => decide (o < 2))).Nodup) ∧
    dnaToImage ⟨1, 8, 16, 2⟩
        [['C','A','A','A','A','A','A','A','A'], ['A','G','A','A','A','A','A','A','A']] =
      dnaToImage ⟨1, 8, 16, 2⟩
        [['A','G','A','A','A','A','A','A','A'], ['C','A','A','A','A','A','A','A','A']] :=
  ⟨⟨by decide, by decide, by decide⟩,
    claim2_amended ⟨1, 8, 16, 2⟩
      [['C','A','A','A','A','A','A','A','A'], ['A','G','A','A','A','A','A','A','A']]
      [['A','G','A','A','A','A','A','A','A'], ['C','A','A','A','A','A','A','A','A']]
      (by decide) (by decide) (by decide)⟩

/-- C2 counterexample: the sequences `"CAAAAAAAA"` and `"ACAAAAAAA"` both
decode to address 0 with different payloads; under the codec state
`(1, 8, 16, 2)` the two orders of the same two-element list decode to
different byte buffers, so order independence fails on lists with duplicate
addresses. -/
theorem claim2_counterexample :
    (([['C','A','A','A','A','A','A','A','A'], ['A','C','A','A','A','A','A','A','A']] :
      List (List Char)).Perm
      [['A','C','A','A','A','A','A','A','A'], ['C','A','A','A','A','A','A','A','A']]) ∧
    orderOfSeq ⟨1, 8, 16, 2⟩ ['C','A','A','A','A','A','A','A','A'] =
      orderOfSeq ⟨1, 8, 16, 2⟩ ['A','C','A','A','A','A','A','A','A'] ∧
    dnaToImage ⟨1, 8, 16, 2⟩
        [['C','A','A','A','A','A','A','A','A'], ['A','C','A','A','A','A','A','A','A']] ≠
      dnaToImage ⟨1, 8, 16, 2⟩
        [['A','C','A','A','A','A','A','A','A'], ['C','A','A','A','A','A','A','A','A']] :=
  ⟨by decide, by decide, by decide⟩

/-! ### Partial loss -/

theorem getD_map {α β : Type} (f : α → β) (d : β) (l : List α) {j : Nat}
    (hj : j < l.length) :
    (l.map f).getD j d = f (l.get ⟨j, hj⟩) := by
  rw [List.getD_eq_getElem?_getD, List.getElem?_map, List.getElem?_eq_getElem hj]
  rfl

theorem filter_pairs_nil (st : CoderState) (L : List (List Char)) (c j : Nat)
    (h : ∀ i, (hi : i < L.length) → orderOfSeq st (L.get ⟨i, hi⟩) = c + i)
    (hj : j < c) :
    ((L.map fun s => (orderOfSeq st s, payloadOfSeq st s)).filter
      (fun x => x.1 == j)) = [] := by
  rw [List.filter_eq_nil_iff]
  intro x hx
  obtain ⟨t, ht, rfl⟩ := List.mem_map.mp hx
  obtain ⟨i, hi, rfl⟩ := List.mem_iff_getElem.mp ht
  have ho := h i hi
  rw [List.get_eq_getElem] at ho
  simp [ho]
  omega

theorem filter_pairs_shift (st : CoderState) : ∀ (S : List (List Char)) (c j : Nat),
    (∀ i, (hi : i < S.length) → orderOfSeq st (S.get ⟨i, hi⟩) = c + i) →
    ((S.map fun s => (orderOfSeq st s, payloadOfSeq st s)).filter
      (fun x => x.1 == c + j)) =
      if hj : j < S.length then [(c + j, payloadOfSeq st (S.get ⟨j, hj⟩))] else [] := by
  intro S
  induction S with
  | nil =>
    intro c j h
    simp
  | cons s rest ih =>
    intro c j h
    have h0 : orderOfSeq st s = c := by
      have := h 0 (by simp)
      simpa using this
    have harg : ∀ i, (hi : i < rest.length) →
        orderOfSeq st (rest.get ⟨i, hi⟩) = (c + 1) + i := by
      intro i hi
      have := h (i + 1) (by simp only [List.length_cons]; omega)
      rw [show (s :: rest).get ⟨i + 1, by simp only [List.length_cons]; omega⟩ =
        rest.get ⟨i, hi⟩ from rfl] at this
      rw [this]
      omega
    rw [List.map_cons, List.filter_cons]
    by_cases hj0 : j = 0
    · subst hj0
      rw [if_pos (by simp [h0])]
      have hrest : ((rest.map fun s => (orderOfSeq st s, payloadOfSeq st s)).filter
          (fun x => x.1 == c + 0)) = [] :=
        filter_pairs_nil st rest (c + 1) (c + 0) harg (by omega)
      rw [hrest]
      rw [dif_pos (by simp)]
      simp [h0]
    · obtain ⟨j', rfl⟩ : ∃ j', j = j' + 1 := ⟨j - 1, by omega⟩
      rw [if_neg (by simp only [beq_iff_eq, h0]; omega)]
      have := ih (c + 1) j' harg
      rw [show (c + 1) + j' = c + (j' + 1) by omega] at this
      rw [this]
      by_cases hjl : j' < rest.length
      · rw [dif_pos hjl, dif_pos (by simp only [List.length_cons]; omega)]
        rfl
      · rw [dif_neg hjl, dif_neg (by simp only [List.length_cons]; omega)]

theorem ext_getD {α : Type} (l1 l2 : List α) (d : α) (hl : l1.length = l2.length)
    (h : ∀ j, j < l1.length → l1.getD j d = l2.getD j d) : l1 = l2 := by
  apply List.ext_getElem hl
  intro j h1 h2
  have hj := h j h1
  rw [List.getD_eq_getElem?_getD, List.getD_eq_getElem?_getD,
    List.getElem?_eq_getElem h1, List.getElem?_eq_getElem h2] at hj
  simpa using hj

/-- The frame table of a complete encoded list (row `i` decodes to order `i`):
every slot receives exactly its own payload. -/
theorem decodeTable_full (st : CoderState) (S : List (List Char))
    (hlenS : S.length = st.message_number)
    (horders : ∀ i, (hi : i < S.length) → orderOfSeq st (S.get ⟨i, hi⟩) = i) :
    decodeTable st S = S.map (payloadOfSeq st) := by
  apply ext_getD _ _ (zeroFrame st)
  · rw [decodeTable_length, List.length_map, hlenS]
  · intro j h1
    rw [decodeTable_length] at h1
    unfold decodeTable
    rw [foldl_place_getD st _ _ j _ h1 (by simp)]
    rw [decodePairs_decomp]
    rw [List.take_of_length_le (le_of_eq hlenS), hlenS, Nat.sub_self,
      List.replicate_zero, List.append_nil]
    have hflt := filter_pairs_shift st S 0 j (by intro i hi; simpa using horders i hi)
    rw [show (0 : Nat) + j = j by omega] at hflt
    rw [hflt, dif_pos (show j < S.length by omega)]
    simp only [List.getLast?_singleton]
    rw [getD_map _ _ _ (show j < S.length by omega)]

/-- The frame table after the sequence with address `k` is removed from a
complete encoded list: the input matrix now has one unwritten all-zero row,
which decodes to order 0 and is placed last, so slot 0 is overwritten with
zeros in addition to slot `k` never being written. -/
theorem decodeTable_eraseIdx (st : CoderState) (S : List (List Char)) (k : Nat)
    (hlenS : S.length = st.message_number)
    (horders : ∀ i, (hi : i < S.length) → orderOfSeq st (S.get ⟨i, hi⟩) = i)
    (hk : k < st.message_number) :
    decodeTable st (S.eraseIdx k) =
      ((S.map (payloadOfSeq st)).set 0 (zeroFrame st)).set k (zeroFrame st) := by
  have hkS : k < S.length := by omega
  have hlenE : (S.eraseIdx k).length = st.message_number - 1 := by
    rw [List.length_eraseIdx_of_lt hkS, hlenS]
  have htk : (S.take k).length = k := by
    rw [List.length_take]
    omega
  have htd : (S.drop (k + 1)).length = S.length - (k + 1) := by
    rw [List.length_drop]
  have horders_take : ∀ i, (hi : i < (S.take k).length) →
      orderOfSeq st ((S.take k).get ⟨i, hi⟩) = 0 + i := by
    intro i hi
    have hiS : i < S.length := by omega
    rw [show (S.take k).get ⟨i, hi⟩ = S.get ⟨i, hiS⟩ by
      rw [List.get_eq_getElem, List.get_eq_getElem, List.getElem_take]]
    rw [horders i hiS]
    omega
  have horders_drop : ∀ i, (hi : i < (S.drop (k + 1)).length) →
      orderOfSeq st ((S.drop (k + 1)).get ⟨i, hi⟩) = (k + 1) + i := by
    intro i hi
    have hiS : k + 1 + i < S.length := by omega
    rw [show (S.drop (k + 1)).get ⟨i, hi⟩ = S.get ⟨k + 1 + i, hiS⟩ by
      rw [List.get_eq_getElem, List.get_eq_getElem, List.getElem_drop]]
    exact horders _ hiS
  apply ext_getD _ _ (zeroFrame st)
  · rw [decodeTable_length]
    simp [hlenS]
  · intro j h1
    rw [decodeTable_length] at h1
    unfold decodeTable
    rw [foldl_place_getD st _ _ j _ h1 (by simp)]
    rw [decodePairs_decomp]
    rw [List.take_of_length_le (by omega),
      hlenE, show st.message_number - (st.message_number - 1) = 1 by omega]
    rw [List.eraseIdx_eq_take_drop_succ, List.map_append, List.filter_append,
      List.filter_append]
    by_cases hj0 : j = 0
    · subst hj0
      rw [List.filter_replicate_of_pos (by simp)]
      rw [show List.replicate 1 ((0 : Nat), zeroFrame st) = [(0, zeroFrame st)] from rfl]
      rw [List.getLast?_concat]
      by_cases hk0 : k = 0
      · subst hk0
        rw [getD_set_self _ _ _ _ (by simp [hlenS]; omega)]
      · rw [getD_set_ne _ _ _ _ _ hk0, getD_set_self _ _ _ _ (by simp [hlenS]; omega)]
    · rw [List.filter_replicate_of_neg (by simpa using Ne.symm hj0), List.append_nil]
      rcases Nat.lt_trichotomy j k with hjk | hjk | hjk
      · have hflt1 := filter_pairs_shift st (S.take k) 0 j horders_take
        rw [show (0 : Nat) + j = j by omega] at hflt1
        rw [hflt1, dif_pos (by omega)]
        rw [filter_pairs_nil st (S.drop (k + 1)) (k + 1) j horders_drop (by omega)]
        rw [List.append_nil, List.getLast?_singleton]
        rw [getD_set_ne _ _ _ _ _ (by omega), getD_set_ne _ _ _ _ _ (by omega)]
        rw [getD_map _ _ _ (show j < S.length by omega)]
        rw [List.get_eq_getElem, List.get_eq_getElem, List.getElem_take]
      · have hflt1 := filter_pairs_shift st (S.take k) 0 j horders_take
        rw [show (0 : Nat) + j = j by omega] at hflt1
        rw [hflt1, dif_neg (by omega)]
        rw [filter_pairs_nil st (S.drop (k + 1)) (k + 1) j horders_drop (by omega)]
        rw [List.append_nil, List.getLast?_nil, hjk]
        rw [getD_set_self _ _ _ _ (by simp [hlenS]; omega)]
        exact getD_replicate _ _ _ _ (by omega)
      · obtain ⟨j', rfl⟩ : ∃ j', j = (k + 1) + j' := ⟨j - (k + 1), by omega⟩
        have hflt1 := filter_pairs_shift st (S.take k) 0 ((k + 1) + j') horders_take
        rw [show (0 : Nat) + ((k + 1) + j') = (k + 1) + j' by omega] at hflt1
        rw [hflt1, dif_neg (by omega)]
        have hflt2 := filter_pairs_shift st (S.drop (k + 1)) (k + 1) j' horders_drop
        rw [hflt2, dif_pos (by omega)]
        rw [List.nil_append, List.getLast?_singleton]
        rw [getD_set_ne _ _ _ _ _ (by omega), getD_set_ne _ _ _ _ _ (by omega)]
        rw [getD_map _ _ _ (show (k + 1) + j' < S.length by omega)]
        rw [List.get_eq_getElem, List.get_eq_getElem, List.getElem_drop]

theorem dnaToImage_success (st : CoderState) (S : List (List Char))
    (hlen : S.length ≤ st.message_number) (hN : 0 < st.message_number)
    (hall : S.all (seqValid (st.address + st.payload)) = true)
    (hbn : byteNumber2 (st.address * 2) ≤ 8)
    (hmod : keptCount st (st.message_number * (2 * st.payload)) % 8 = 0) :
    dnaToImage st S = some (outBytes st (decodeTable st S)) := by
  unfold dnaToImage
  rw [stage1Ok_of_le st S hlen, hall]
  rw [if_pos rfl, if_neg (by omega), if_pos hbn]
  rw [decodeTable_flatten_length, if_pos hmod]

/-- C5 amended: on a complete encoded list (length `frame_count`, sequence
`i` decoding to order `i`, all characters valid) the full decode returns the
payload of every frame in order; removing the sequence with address `k`
yields the same output except that the bits of frame `k` AND of frame `0`
are all zero.  The shorter input leaves the last row of the fixed
`frame_count`-row matrix unwritten; that all-zero row decodes to address `0`
and is placed last, overwriting slot `0`.  For `k = 0` the two zeroed slots
coincide and the output matches the original claim. -/
theorem claim5_amended (st : CoderState) (S : List (List Char)) (k : Nat)
    (hlenS : S.length = st.message_number)
    (hvalid : ∀ s ∈ S, seqValid (st.address + st.payload) s = true)
    (horders : ∀ i, i < S.length → orderOfSeq st (S.getD i []) = i)
    (hk : k < st.message_number)
    (hbn : byteNumber2 (st.address * 2) ≤ 8)
    (hmod : keptCount st (st.message_number * (2 * st.payload)) % 8 = 0) :
    dnaToImage st S = some (outBytes st (S.map (payloadOfSeq st))) ∧
    dnaToImage st (S.eraseIdx k) =
      some (outBytes st (((S.map (payloadOfSeq st)).set 0 (zeroFrame st)).set k
        (zeroFrame st))) := by
  have hN : 0 < st.message_number := by omega
  have horders' : ∀ i, (hi : i < S.length) → orderOfSeq st (S.get ⟨i, hi⟩) = i := by
    intro i hi
    have hgd := horders i hi
    rw [List.getD_eq_getElem?_getD, List.getElem?_eq_getElem hi] at hgd
    simpa using hgd
  constructor
  · rw [dnaToImage_success st S (le_of_eq hlenS) hN (List.all_eq_true.mpr hvalid) hbn hmod]
    rw [decodeTable_full st S hlenS horders']
  · have hvalidE : ∀ s ∈ S.eraseIdx k, seqValid (st.address + st.payload) s = true :=
      fun s hs => hvalid s (List.mem_of_mem_eraseIdx hs)
    rw [dnaToImage_success st (S.eraseIdx k)
      (by rw [List.length_eraseIdx_of_lt (by omega)]; omega)
      hN (List.all_eq_true.mpr hvalidE) hbn hmod]
    rw [decodeTable_eraseIdx st S k hlenS horders' hk]

/-- Witness for the amended C5 on a two-frame encoded list with `k = 1`:
the full decode gives bytes `[1, 0]`, the partial decode gives `[0, 0]` —
frame 0 is zeroed along with the removed frame 1. -/
theorem claim5_amended_witness :
    ((([['C','A','A','A','A','A','A','A','A'], ['A','G','A','A','A','A','A','A','A']] :
        List (List Char)).length = 2) ∧
      (∀ s ∈ ([['C','A','A','A','A','A','A','A','A'], ['A','G','A','A','A','A','A','A','A']] :
        List (List Char)), seqValid (1 + 8) s = true) ∧
      (∀ i, i < ([['C','A','A','A','A','A','A','A','A'], ['A','G','A','A','A','A','A','A','A']] :
        List (List Char)).length →
        orderOfSeq ⟨1, 8, 16, 2⟩
          (([['C','A','A','A','A','A','A','A','A'], ['A','G','A','A','A','A','A','A','A']] :
            List (List Char)).getD i []) = i) ∧
      (1 : Nat) < 2 ∧ byteNumber2 (1 * 2) ≤ 8 ∧
      keptCount ⟨1, 8, 16, 2⟩ (2 * (2 * 8)) % 8 = 0) ∧
    (dnaToImage ⟨1, 8, 16, 2⟩
        [['C','A','A','A','A','A','A','A','A'], ['A','G','A','A','A','A','A','A','A']] =
      some (outBytes ⟨1, 8, 16, 2⟩
        (([['C','A','A','A','A','A','A','A','A'], ['A','G','A','A','A','A','A','A','A']] :
          List (List Char)).map (payloadOfSeq ⟨1, 8, 16, 2⟩))) ∧
    dnaToImage ⟨1, 8, 16, 2⟩
        (([['C','A','A','A','A','A','A','A','A'], ['A','G','A','A','A','A','A','A','A']] :
          List (List Char)).eraseIdx 1) =
      some (outBytes ⟨1, 8, 16, 2⟩
        (((([['C','A','A','A','A','A','A','A','A'], ['A','G','A','A','A','A','A','A','A']] :
          List (List Char)).map (payloadOfSeq ⟨1, 8, 16, 2⟩)).set 0
            (zeroFrame ⟨1, 8, 16, 2⟩)).set 1 (zeroFrame ⟨1, 8, 16, 2⟩)))) :=
  ⟨⟨by decide, by decide, by decide, by decide, by decide, by decide⟩,
    claim5_amended ⟨1, 8, 16, 2⟩
      [['C','A','A','A','A','A','A','A','A'], ['A','G','A','A','A','A','A','A','A']] 1
      (by decide) (by decide) (by decide) (by decide) (by decide) (by decide)⟩

/-- C5 counterexample: for the two-frame encoded list below, all 16 output
bits belong to frame 0 (the supplement trim discards all of frame 1), so by
the claim the decode without the address-1 sequence should equal the full
decode.  It does not: the full decode is `[1, 0]` but the partial decode is
`[0, 0]` — the bits of frame 0, not removed, were zeroed. -/
theorem claim5_counterexample :
    orderOfSeq ⟨1, 8, 16, 2⟩ ['C','A','A','A','A','A','A','A','A'] = 0 ∧
    orderOfSeq ⟨1, 8, 16, 2⟩ ['A','G','A','A','A','A','A','A','A'] = 1 ∧
    dnaToImage ⟨1, 8, 16, 2⟩
        [['C','A','A','A','A','A','A','A','A'], ['A','G','A','A','A','A','A','A','A']] =
      some [1, 0] ∧
    dnaToImage ⟨1, 8, 16, 2⟩
        (([['C','A','A','A','A','A','A','A','A'], ['A','G','A','A','A','A','A','A','A']] :
          List (List Char)).eraseIdx 1) = some [0, 0] :=
  ⟨by decide, by decide, by decide, by decide⟩

/-! ### Concrete whole-pipeline facts -/

/-- C1 (evaluation of the code at the failing input): encoding the 32-byte
all-zero buffer records `supplement = 0` (the 256-bit stream is already a
multiple of `2 * payload_width`), and decoding the unmodified sequence list
with that state returns the EMPTY byte buffer — Python `bits[:-0]` keeps
nothing — not the original bytes.  The third conjunct shows the same round
trip succeeding on a 1-byte input, whose supplement is nonzero, localising
the failure to the `supplement = 0` case. -/
theorem claim1_roundtrip_failure :
    (imageToDna 12 (List.replicate 32 0)).bind (fun r => dnaToImage r.2 r.1) = some [] ∧
    (List.replicate 32 (0 : Nat)) ≠ ([] : List Nat) ∧
    (imageToDna 12 [255]).bind (fun r => dnaToImage r.2 r.1) = some [255] :=
  ⟨by decide, by decide, by decide⟩

/-- C3 counterexample: the concatenated address+payload bit pattern of the
single frame of input `0xFF` is 24 zero bits, 8 one bits, 248 zero bits.
Consuming it in adjacent bit pairs as the claim states would give the
sequence `AAAAAAAAAAAATTTT...`, but the encoder actually emits
`AAAAAAAAAAAAAAAAAAAAAAAAGGGGGGGG...`: the mapping pairs bit `j` with bit
`140 + j`, not bit `2j` with bit `2j + 1`. -/
theorem claim3_counterexample :
    encodeRows 12 [255] =
      some [List.replicate 24 false ++ List.replicate 8 true ++ List.replicate 248 false] ∧
    (imageToDna 12 [255]).map (fun r => r.1.getD 0 []) =
      some (List.replicate 24 'A' ++ List.replicate 8 'G' ++ List.replicate 108 'A') ∧
    mapRow (12 + 128)
        (List.replicate 24 false ++ List.replicate 8 true ++ List.replicate 248 false) ≠
      specAdjacentSymbols
        (List.replicate 24 false ++ List.replicate 8 true ++ List.replicate 248 false) :=
  ⟨by decide, by decide, by decide⟩

/-- C9 counterexample: expanding the last 128 symbols of the produced
sequence through the 2-bit table does NOT give the eight bits `11111111`
followed by 248 zeros (it gives 24 zeros, then `1010101010101010`, then 216
zeros), because the encoder does not consume adjacent bit pairs. -/
theorem claim9_counterexample :
    (imageToDna 12 [255]).map
        (fun r => specAdjacentBits ((r.1.getD 0 []).drop 12)) ≠
      some (List.replicate 8 true ++ List.replicate 248 false) := by
  decide

/-- C9 amended: encoding the 1-byte input `0xFF` with `payload_width = 128`
pads the 8-bit stream to 256 bits with `supplement_bit_count = 248` and
produces exactly one sequence of `address_width + 128 = 140` symbols, namely
24 `A`s, 8 `G`s and 108 `A`s.  Its first `address_width` symbols are all `A`
and the sequence decodes to order 0; under the code's split bit layout the
demapped 280-bit row is the 24-bit zero address followed by the payload
`11111111` and 248 zero bits.  (The adjacent-pair reading of the last 128
symbols claimed by the spec does not hold, see the counterexample.) -/
theorem claim9_amended :
    imageToDna 12 [255] =
      some ([List.replicate 24 'A' ++ List.replicate 8 'G' ++ List.replicate 108 'A'],
        ⟨12, 128, 248, 1⟩) ∧
    (List.replicate 24 'A' ++ List.replicate 8 'G' ++ List.replicate 108 'A').length =
      12 + 128 ∧
    (List.replicate 24 'A' ++ List.replicate 8 'G' ++ List.replicate 108 'A').take 12 =
      List.replicate 12 'A' ∧
    demapBits (12 + 128)
        (List.replicate 24 'A' ++ List.replicate 8 'G' ++ List.replicate 108 'A') =
      List.replicate 24 false ++ List.replicate 8 true ++ List.replicate 248 false ∧
    orderOfSeq ⟨12, 128, 248, 1⟩
        (List.replicate 24 'A' ++ List.replicate 8 'G' ++ List.replicate 108 'A') = 0 :=
  ⟨by decide, by decide, by decide, by decide, by decide⟩
